import Mathlib

set_option maxHeartbeats 1000000

/-!
Shallow embedding of `src/aoc/2023/22.py` (Advent of Code 2023 day 22:
falling-brick settling and structural-support analysis).

Modelling conventions:
* Python integers are unbounded, so coordinates are `Int`.
* One line of the input text is modelled as its pair of endpoint triples;
  splitting at `~` and `,` and digit parsing are out of scope (spec §1
  declares input parsing out of scope).
* A Python `set` of bricks is modelled by a deduplicated list
  (`List.dedup`, keeping first occurrences) or by a `Finset`.
* Python `sorted` is a stable sort; it is modelled by `List.insertionSort`,
  which is also stable, hence extensionally the same function.
* The Python `while` loop in `get_settled_bricks` is modelled with explicit
  fuel `z_min.toNat`; each iteration moves the brick down one unit and the
  loop stops as soon as `z_min` reaches 1, so this fuel always suffices:
  `dropBrick_of_none`, `dropBrick_step` and `dropBrick_blocked` below show
  that the fuelled loop satisfies exactly the unbounded loop's equations.
* The unguarded `brick.move_down(distance)` in the Python source would
  crash (`AttributeError`) if it returned `None`; this is modelled by
  `Option`: `get_settled_bricks` returns `none` exactly when the Python
  program would crash there.
-/

/-- Mirror of `Position` (a `NamedTuple` of three ints). -/
structure Position where
  x : Int
  y : Int
  z : Int
deriving DecidableEq, Repr

instance : Inhabited Position := ⟨⟨0, 0, 0⟩⟩

/-- Tuple indexing `p[i]` used by `Brick.intersects`. -/
def Position.get (p : Position) (i : Nat) : Int :=
  match i with
  | 0 => p.x
  | 1 => p.y
  | _ => p.z

/-- Python tuple `<` on `Position` (lexicographic), as used by `sorted`. -/
def Position.lt (p q : Position) : Prop :=
  p.x < q.x ∨ (p.x = q.x ∧ (p.y < q.y ∨ (p.y = q.y ∧ p.z < q.z)))

instance : DecidableRel Position.lt := fun p q => by
  unfold Position.lt; infer_instance

/-- Mirror of the frozen dataclass `Brick` (`end` is a Lean keyword, so the
second field is called `end_`). -/
structure Brick where
  start : Position
  end_ : Position
deriving DecidableEq, Repr

instance : Inhabited Brick := ⟨⟨⟨0, 0, 0⟩, ⟨0, 0, 0⟩⟩⟩

/-- Mirror of `Brick.move_down`: a new brick shifted by `-n` in z when both
endpoint z coordinates exceed `n`, and the sentinel `None` otherwise.
(The Python default argument is `n = 1`; call sites pass `1` explicitly.) -/
def Brick.move_down (b : Brick) (n : Int) : Option Brick :=
  if n < b.start.z ∧ n < b.end_.z then
    some ⟨⟨b.start.x, b.start.y, b.start.z - n⟩, ⟨b.end_.x, b.end_.y, b.end_.z - n⟩⟩
  else
    none

/-- One iteration of the `for index in range(3)` loop in `Brick.intersects`:
the chained equality `self.start[xi] == self.end[xi] == other.start[xi] ==
other.end[xi]` plus the four inclusive range comparisons. -/
def Brick.checkAt (self other : Brick) (index : Nat) : Bool :=
  let xi := index
  let yi := (index + 1) % 3
  let zi := (index + 2) % 3
  decide (self.start.get xi = self.end_.get xi) &&
  decide (self.end_.get xi = other.start.get xi) &&
  decide (other.start.get xi = other.end_.get xi) &&
  decide (other.start.get yi ≤ self.end_.get yi) &&
  decide (self.start.get yi ≤ other.end_.get yi) &&
  decide (other.start.get zi ≤ self.end_.get zi) &&
  decide (self.start.get zi ≤ other.end_.get zi)

/-- Mirror of `Brick.intersects`. -/
def Brick.intersects (self other : Brick) : Bool :=
  self.checkAt other 0 || self.checkAt other 1 || self.checkAt other 2

/-- Mirror of the `z_max` property. -/
def Brick.z_max (b : Brick) : Int := max b.start.z b.end_.z

/-- Mirror of the `z_min` property. -/
def Brick.z_min (b : Brick) : Int := min b.start.z b.end_.z

/-- Mirror of `Brick.from_str` after the (out-of-scope) textual split: build
a brick from the two endpoint triples, ordering them with Python's stable
`sorted`, i.e. swapping exactly when the second triple is lexicographically
smaller than the first. -/
def Brick.from_triples (p q : Position) : Brick :=
  if Position.lt q p then ⟨q, p⟩ else ⟨p, q⟩

/-- Mirror of `get_intersection` (the set comprehension), as the filtered
list; call sites apply `List.dedup` where Python's set semantics (size,
iteration) matter.  Emptiness of the filtered list and of the set agree. -/
def get_intersection (brick : Brick) (other_bricks : List Brick) : List Brick :=
  other_bricks.filter fun other => brick.intersects other

/-- Sort key relation of `sorted(bricks, key=lambda b: min(b.start.z, b.end.z))`. -/
def zle (a b : Brick) : Prop := a.z_min ≤ b.z_min

instance : DecidableRel zle := fun a b => by unfold zle; infer_instance

instance : IsTotal Brick zle := ⟨fun a b => le_total a.z_min b.z_min⟩

instance : IsTrans Brick zle := ⟨fun _ _ _ h1 h2 => le_trans h1 h2⟩

/-- Python's stable `sorted` by `z_min`, modelled by (stable) insertion sort. -/
def sortZ (bricks : List Brick) : List Brick := List.insertionSort zle bricks

/-- Mirror of `max([settled_brick.z_max for ...], default=1)`. -/
def maxSettledZ (settled : List Brick) : Int :=
  match settled.map Brick.z_max with
  | [] => 1
  | z :: zs => zs.foldl max z

/-- Fuelled mirror of the `while (down_brick := brick.move_down()) and not
get_intersection(down_brick, settled_bricks)` loop. -/
def dropLoopF (settled : List Brick) : Nat → Brick → Brick
  | 0, brick => brick
  | fuel + 1, brick =>
    match brick.move_down 1 with
    | none => brick
    | some down_brick =>
      if (get_intersection down_brick settled).isEmpty then
        dropLoopF settled fuel down_brick
      else brick

/-- The settling loop with its canonical (always sufficient) fuel: each loop
iteration lowers `z_min` by one and the loop stops when `z_min ≤ 1`. -/
def dropBrick (settled : List Brick) (brick : Brick) : Brick :=
  dropLoopF settled brick.z_min.toNat brick

/-- One iteration of the `for brick in sorted(bricks, ...)` loop in
`get_settled_bricks`: the fast-forward jump by `distance`, then the
one-step-at-a-time descent, then appending to the settled list.  `none`
models the Python crash that would follow `move_down(distance)` being
`None`. -/
def settleStep (settled : List Brick) (brick : Brick) : Option (List Brick) :=
  let distance := brick.z_min - maxSettledZ settled - 1
  match brick.move_down distance with
  | none => none
  | some jumped => some (settled ++ [dropBrick settled jumped])

/-- The whole settling loop over an already-sorted list of bricks. -/
def settleFold (settled : List Brick) : List Brick → Option (List Brick)
  | [] => some settled
  | brick :: rest =>
    match settleStep settled brick with
    | none => none
    | some settled' => settleFold settled' rest

/-- The settling simulator on a list of (already parsed) bricks: sort by
`z_min`, then run the settling loop starting from the empty settled list. -/
def settleConfig (bricks : List Brick) : Option (List Brick) :=
  settleFold [] (sortZ bricks)

/-- `[Brick.from_str(line) for line in text.splitlines()]`, with each line
modelled as its two endpoint triples. -/
def parseLines (input : List (Position × Position)) : List Brick :=
  input.map fun pq => Brick.from_triples pq.1 pq.2

/-- Mirror of `get_settled_bricks`. -/
def get_settled_bricks (input : List (Position × Position)) : Option (List Brick) :=
  settleConfig (parseLines input)

/-- The jump-free variant of one settling iteration (spec §9 open question):
no fast-forward, the brick is lowered one unit at a time from its current
position. -/
def settleStepNJ (settled : List Brick) (brick : Brick) : List Brick :=
  settled ++ [dropBrick settled brick]

/-- The jump-free variant of the settling loop. -/
def settleFoldNJ (settled : List Brick) : List Brick → List Brick
  | [] => settled
  | brick :: rest => settleFoldNJ (settleStepNJ settled brick) rest

/-- The jump-free variant of `get_settled_bricks` (it cannot crash, so it is
total). -/
def get_settled_bricks_nojump (input : List (Position × Position)) : List Brick :=
  settleFoldNJ [] (sortZ (parseLines input))

/-- `settled_bricks[:index] + settled_bricks[index + 1:]`. -/
def others (settled : List Brick) (i : Nat) : List Brick :=
  settled.take i ++ settled.drop (i + 1)

/-- The body of the `part1` loop at index `i`: `some s` exactly when brick
`i` can move down and the set of other settled bricks it would then
intersect has exactly one element `s` (that element is what `pop()`
returns). -/
def soleSupporter (settled : List Brick) (i : Nat) : Option Brick :=
  match (settled.getD i default).move_down 1 with
  | none => none
  | some down_brick =>
    match (get_intersection down_brick (others settled i)).dedup with
    | [b] => some b
    | _ => none

/-- The `support_bricks` set accumulated by `part1`. -/
def supportFinset (settled : List Brick) : Finset Brick :=
  (List.range settled.length).foldl
    (fun acc i =>
      match soleSupporter settled i with
      | some b => insert b acc
      | none => acc) ∅

/-- Mirror of `part1`. -/
def part1 (input : List (Position × Position)) : Option Nat :=
  (get_settled_bricks input).map fun settled =>
    settled.length - (supportFinset settled).card

/-- The `(support_brick, brick)` append sequence that builds `graph` in
`part2`, in loop order (the Python set of supporters is iterated in its
deduplicated first-occurrence order). -/
def buildEdges (settled : List Brick) : List (Brick × Brick) :=
  (List.range settled.length).foldl
    (fun acc i =>
      match (settled.getD i default).move_down 1 with
      | none => acc
      | some down_brick =>
        acc ++ ((get_intersection down_brick (others settled i)).dedup.map
          fun support => (support, settled.getD i default))) []

/-- `graph[node]`: the adjacency list of `node`, in append order. -/
def adjOf (edges : List (Brick × Brick)) (node : Brick) : List Brick :=
  (edges.filter fun e => e.1 == node).map Prod.snd

/-- The fresh per-trial `in_degree` map: for each brick, how many edges of
the whole graph point to it (`defaultdict(int)` defaults to 0). -/
def indeg0 (edges : List (Brick × Brick)) (b : Brick) : Int :=
  ((edges.filter fun e => e.2 == b).length : Int)

/-- The inner `for next_node in graph[node]` loop of a removal trial.  The
work list is represented reversed (Python `list.pop()` pops the last
element, ours pops the head), which mirrors push/pop order exactly. -/
def relaxFold (nexts : List Brick) (st : (Brick → Int) × List Brick × Nat) :
    (Brick → Int) × List Brick × Nat :=
  nexts.foldl
    (fun st next =>
      let v := st.1 next - 1
      let indeg := fun x => if x = next then v else st.1 x
      if v = 0 then (indeg, next :: st.2.1, st.2.2 + 1) else (indeg, st.2.1, st.2.2))
    st

/-- Fuelled mirror of the `while len(zero_in_degree_nodes) > 0` loop.  Each
iteration pops one node; a node is pushed only when its in-degree counter
hits exactly 0, which happens at most once per distinct target, so at most
`edges.length` pushes follow the initial seed and fuel `edges.length + 1`
covers every pop the Python loop performs. -/
def cascadeLoop (edges : List (Brick × Brick)) :
    Nat → (Brick → Int) → List Brick → Nat → Nat
  | 0, _, _, n_falls => n_falls
  | _ + 1, _, [], n_falls => n_falls
  | fuel + 1, indeg, node :: stack, n_falls =>
    let st := relaxFold (adjOf edges node) (indeg, stack, n_falls)
    cascadeLoop edges fuel st.1 st.2.1 st.2.2

/-- One removal trial of `part2`: fresh global in-degrees, seed work list
`[removed]`, count the falls. -/
def cascadeRun (edges : List (Brick × Brick)) (removed : Brick) : Nat :=
  cascadeLoop edges (edges.length + 1) (indeg0 edges) [removed] 0

/-- Mirror of `part2`.  `list(graph)` is the first-occurrence order of edge
sources (Python dict preserves insertion order). -/
def part2 (input : List (Position × Position)) : Option Nat :=
  (get_settled_bricks input).map fun settled =>
    let edges := buildEdges settled
    ((edges.map Prod.fst).dedup).foldl (fun acc r => acc + cascadeRun edges r) 0

/-- The canonical 7-brick example input from the spec (§8). -/
def exInput : List (Position × Position) :=
  [(⟨1, 0, 1⟩, ⟨1, 2, 1⟩), (⟨0, 0, 2⟩, ⟨2, 0, 2⟩), (⟨0, 2, 3⟩, ⟨2, 2, 3⟩),
   (⟨0, 0, 4⟩, ⟨0, 2, 4⟩), (⟨2, 0, 5⟩, ⟨2, 2, 5⟩), (⟨0, 1, 6⟩, ⟨2, 1, 6⟩),
   (⟨1, 1, 8⟩, ⟨1, 1, 9⟩)]

/-! ### Analysis-side definitions (used to state the spec's claims) -/

/-- Shift a brick down by `n` in z (a negative `n` lifts it); x and y are
untouched.  `move_down n` returns exactly `shiftZ n` when it succeeds. -/
def Brick.shiftZ (b : Brick) (n : Int) : Brick :=
  ⟨⟨b.start.x, b.start.y, b.start.z - n⟩, ⟨b.end_.x, b.end_.y, b.end_.z - n⟩⟩

/-- The code's inclusive range-overlap test between two bricks on axis `i`
(the two comparisons `self.end[i] >= other.start[i]` and
`self.start[i] <= other.end[i]`). -/
def overlapOn (a b : Brick) (i : Nat) : Prop :=
  b.start.get i ≤ a.end_.get i ∧ a.start.get i ≤ b.end_.get i

/-- Brick `b` is constant-valued along axis `i`. -/
def axisConst (b : Brick) (i : Nat) : Prop := b.start.get i = b.end_.get i

/-- A brick that is degenerate in at least two of the three axes (spec §3:
always a line, never a volume). -/
def isLine (b : Brick) : Prop :=
  (axisConst b 0 ∧ axisConst b 1) ∨ (axisConst b 0 ∧ axisConst b 2) ∨
    (axisConst b 1 ∧ axisConst b 2)

/-- The z coordinates of a brick's endpoints are stored low-to-high. -/
def zNorm (b : Brick) : Prop := b.start.z ≤ b.end_.z

/-- The two endpoint triples of an input line differ in at most one
coordinate (an axis-aligned line segment). -/
def LinePair (p q : Position) : Prop :=
  (p.x = q.x ∧ p.y = q.y) ∨ (p.x = q.x ∧ p.z = q.z) ∨ (p.y = q.y ∧ p.z = q.z)

/-- Well-formed input (spec §6, §4.3, §3): every line is an axis-aligned
segment entirely above the floor (both z coordinates at least 1), and no
two parsed bricks overlap in their initial positions. -/
def WellFormed (input : List (Position × Position)) : Prop :=
  (∀ pq ∈ input, LinePair pq.1 pq.2 ∧ 1 ≤ pq.1.z ∧ 1 ≤ pq.2.z) ∧
    (parseLines input).Pairwise fun a b => a.intersects b = false

instance : ∀ p q, Decidable (LinePair p q) := fun p q => by
  unfold LinePair; infer_instance

instance : ∀ input, Decidable (WellFormed input) := fun input => by
  unfold WellFormed; infer_instance

/-- No settled brick intersects `b`. -/
def NoHit (settled : List Brick) (b : Brick) : Prop :=
  ∀ s ∈ settled, b.intersects s = false

/-- Support soundness, by position in the settled list: each settled brick
rests on the floor or would hit another settled brick one step down. -/
def SupportAt (settled : List Brick) : Prop :=
  ∀ i : Fin settled.length, (settled.get i).z_min = 1 ∨
    ∃ d, (settled.get i).move_down 1 = some d ∧
      ∃ j : Fin settled.length, (j : Nat) ≠ (i : Nat) ∧ d.intersects (settled.get j) = true

/-- The full invariant maintained while settling: everything is at or above
the floor, pairwise disjoint, and supported. -/
def SettledInv (settled : List Brick) : Prop :=
  (∀ s ∈ settled, 1 ≤ s.z_min) ∧
    settled.Pairwise (fun a b => a.intersects b = false ∧ b.intersects a = false) ∧
    SupportAt settled

/-- Invariant tying settled bricks back to parsed input bricks: each is an
input line brick dropped by some nonnegative amount, and that input brick
was initially disjoint from (and started no higher than) every brick still
waiting to be processed. -/
def TracksInput (settled l : List Brick) : Prop :=
  ∀ s ∈ settled, ∃ o m, 0 ≤ m ∧ s = o.shiftZ m ∧ isLine o ∧ zNorm o ∧
    ∀ b ∈ l, o.intersects b = false ∧ o.z_min ≤ b.z_min

/-- Spec-side predicate (§4.4 Part A): `s` is a critical supporter iff some
settled brick (identified by its position `i` in settling order) can move
down one unit and `s` is the sole brick — all other settled bricks, the
mover itself excluded by position — that it would then intersect. -/
def IsCriticalSupporter (settled : List Brick) (s : Brick) : Prop :=
  ∃ i : Fin settled.length,
    ((settled.get i).move_down 1).elim False fun down =>
      s ∈ get_intersection down (others settled (i : Nat)) ∧
        ∀ t ∈ get_intersection down (others settled (i : Nat)), t = s

instance optionElimFalseDecidable (o : Option Brick) (P : Brick → Prop)
    [hP : ∀ a, Decidable (P a)] : Decidable (o.elim False P) := by
  cases o with
  | none => exact isFalse fun h => h
  | some a => exact hP a

instance : ∀ settled s, Decidable (IsCriticalSupporter settled s) := fun settled s => by
  unfold IsCriticalSupporter
  infer_instance

/-- The spec-side set of distinct critical supporters. -/
def criticalFinset (settled : List Brick) : Finset Brick :=
  settled.toFinset.filter fun s => IsCriticalSupporter settled s

/-! ### Concrete configurations used by witnesses and counterexamples -/

/-- The settled configuration the code computes for `exInput`. -/
def exSettled : List Brick :=
  [⟨⟨1, 0, 1⟩, ⟨1, 2, 1⟩⟩, ⟨⟨0, 0, 2⟩, ⟨2, 0, 2⟩⟩, ⟨⟨0, 2, 2⟩, ⟨2, 2, 2⟩⟩,
   ⟨⟨0, 0, 3⟩, ⟨0, 2, 3⟩⟩, ⟨⟨2, 0, 3⟩, ⟨2, 2, 3⟩⟩, ⟨⟨0, 1, 4⟩, ⟨2, 1, 4⟩⟩,
   ⟨⟨1, 1, 5⟩, ⟨1, 1, 6⟩⟩]

/-- Three unit bricks: two stacked at column (0,0), one falling beside them.
Its settled list is ordered by the *input* heights, not the settled ones. -/
def cexInput : List (Position × Position) :=
  [(⟨0, 0, 1⟩, ⟨0, 0, 1⟩), (⟨0, 0, 2⟩, ⟨0, 0, 2⟩), (⟨5, 5, 3⟩, ⟨5, 5, 3⟩)]

/-- What the code settles `cexInput` to: the third brick lands on the floor,
below the second, so the list is not sorted by settled `z_min`. -/
def cexSettled : List Brick :=
  [⟨⟨0, 0, 1⟩, ⟨0, 0, 1⟩⟩, ⟨⟨0, 0, 2⟩, ⟨0, 0, 2⟩⟩, ⟨⟨5, 5, 1⟩, ⟨5, 5, 1⟩⟩]

/-- Element-wise endpoint order claimed by the spec's data-model invariant. -/
def elemLe (b : Brick) : Prop :=
  b.start.x ≤ b.end_.x ∧ b.start.y ≤ b.end_.y ∧ b.start.z ≤ b.end_.z

instance : ∀ b, Decidable (elemLe b) := fun b => by
  unfold elemLe
  infer_instance

/-- Python tuple `<=` on `Position` (lexicographic). -/
def Position.le (p q : Position) : Prop :=
  p.x < q.x ∨ (p.x = q.x ∧ (p.y < q.y ∨ (p.y = q.y ∧ p.z ≤ q.z)))

instance : DecidableRel Position.le := fun p q => by
  unfold Position.le
  infer_instance

/-! ### Basic lemmas about the geometric primitives -/

theorem move_down_eq (b : Brick) (n : Int) :
    b.move_down n = if n < b.z_min then some (b.shiftZ n) else none := by
  rcases b with ⟨⟨x1, y1, z1⟩, ⟨x2, y2, z2⟩⟩
  unfold Brick.move_down Brick.shiftZ Brick.z_min
  dsimp only
  by_cases h : n < min z1 z2
  · rw [if_pos ⟨by omega, by omega⟩, if_pos h]
  · rw [if_neg (by omega), if_neg h]

theorem shiftZ_zero (b : Brick) : b.shiftZ 0 = b := by
  rcases b with ⟨⟨x1, y1, z1⟩, ⟨x2, y2, z2⟩⟩
  simp [Brick.shiftZ]

theorem shiftZ_shiftZ (b : Brick) (m n : Int) :
    (b.shiftZ m).shiftZ n = b.shiftZ (m + n) := by
  rcases b with ⟨⟨x1, y1, z1⟩, ⟨x2, y2, z2⟩⟩
  simp [Brick.shiftZ]
  constructor <;> omega

theorem z_min_shiftZ (b : Brick) (n : Int) : (b.shiftZ n).z_min = b.z_min - n := by
  rcases b with ⟨⟨x1, y1, z1⟩, ⟨x2, y2, z2⟩⟩
  simp [Brick.shiftZ, Brick.z_min]
  omega

theorem z_max_shiftZ (b : Brick) (n : Int) : (b.shiftZ n).z_max = b.z_max - n := by
  rcases b with ⟨⟨x1, y1, z1⟩, ⟨x2, y2, z2⟩⟩
  simp [Brick.shiftZ, Brick.z_max]
  omega

theorem get_shiftZ_xy (b : Brick) (n : Int) :
    (b.shiftZ n).start.get 0 = b.start.get 0 ∧ (b.shiftZ n).end_.get 0 = b.end_.get 0 ∧
    (b.shiftZ n).start.get 1 = b.start.get 1 ∧ (b.shiftZ n).end_.get 1 = b.end_.get 1 := by
  rcases b with ⟨⟨x1, y1, z1⟩, ⟨x2, y2, z2⟩⟩
  simp [Brick.shiftZ, Position.get]

theorem get_shiftZ_z (b : Brick) (n : Int) :
    (b.shiftZ n).start.get 2 = b.start.get 2 - n ∧
    (b.shiftZ n).end_.get 2 = b.end_.get 2 - n := by
  rcases b with ⟨⟨x1, y1, z1⟩, ⟨x2, y2, z2⟩⟩
  simp [Brick.shiftZ, Position.get]

theorem checkAt_iff (a b : Brick) (i : Nat) :
    a.checkAt b i = true ↔
      (a.start.get i = a.end_.get i ∧ a.end_.get i = b.start.get i ∧
        b.start.get i = b.end_.get i) ∧
      (b.start.get ((i + 1) % 3) ≤ a.end_.get ((i + 1) % 3) ∧
        a.start.get ((i + 1) % 3) ≤ b.end_.get ((i + 1) % 3)) ∧
      (b.start.get ((i + 2) % 3) ≤ a.end_.get ((i + 2) % 3) ∧
        a.start.get ((i + 2) % 3) ≤ b.end_.get ((i + 2) % 3)) := by
  simp [Brick.checkAt, Bool.and_eq_true, decide_eq_true_eq, and_assoc]

theorem intersects_eq_checks (a b : Brick) :
    a.intersects b = true ↔
      a.checkAt b 0 = true ∨ a.checkAt b 1 = true ∨ a.checkAt b 2 = true := by
  simp [Brick.intersects, Bool.or_eq_true, or_assoc]

theorem checkAt_symm (a b : Brick) (i : Nat) : a.checkAt b i = b.checkAt a i := by
  rw [← Bool.coe_iff_coe, checkAt_iff, checkAt_iff]
  constructor <;> (rintro ⟨h1, h2, h3⟩; exact ⟨by omega, by omega, by omega⟩)

theorem intersects_symm (a b : Brick) : a.intersects b = b.intersects a := by
  unfold Brick.intersects
  rw [checkAt_symm a b 0, checkAt_symm a b 1, checkAt_symm a b 2]

/-- Forward direction of the geometric characterisation: an intersection
implies inclusive range overlap on all three axes (no shape assumption). -/
theorem overlap_of_intersects {a b : Brick} (h : a.intersects b = true) :
    overlapOn a b 0 ∧ overlapOn a b 1 ∧ overlapOn a b 2 := by
  rcases (intersects_eq_checks a b).1 h with hc | hc | hc <;>
    rw [checkAt_iff] at hc <;> (norm_num at hc) <;>
    exact ⟨⟨by omega, by omega⟩, ⟨by omega, by omega⟩, ⟨by omega, by omega⟩⟩

/-- Backward direction for line bricks: two lines that overlap on all three
axes share a constant-equal axis, hence intersect. -/
theorem intersects_of_overlap {a b : Brick} (ha : isLine a) (hb : isLine b)
    (h0 : overlapOn a b 0) (h1 : overlapOn a b 1) (h2 : overlapOn a b 2) :
    a.intersects b = true := by
  rcases h0 with ⟨h0l, h0r⟩; rcases h1 with ⟨h1l, h1r⟩; rcases h2 with ⟨h2l, h2r⟩
  rw [intersects_eq_checks]
  have c0 : axisConst a 0 ∧ axisConst b 0 → a.checkAt b 0 = true := by
    intro ⟨ca, cb⟩
    rw [checkAt_iff]; unfold axisConst at ca cb; norm_num
    exact ⟨⟨by omega, by omega, by omega⟩, ⟨by omega, by omega⟩, by omega, by omega⟩
  have c1 : axisConst a 1 ∧ axisConst b 1 → a.checkAt b 1 = true := by
    intro ⟨ca, cb⟩
    rw [checkAt_iff]; unfold axisConst at ca cb; norm_num
    exact ⟨⟨by omega, by omega, by omega⟩, ⟨by omega, by omega⟩, by omega, by omega⟩
  have c2 : axisConst a 2 ∧ axisConst b 2 → a.checkAt b 2 = true := by
    intro ⟨ca, cb⟩
    rw [checkAt_iff]; unfold axisConst at ca cb; norm_num
    exact ⟨⟨by omega, by omega, by omega⟩, ⟨by omega, by omega⟩, by omega, by omega⟩
  rcases ha with ⟨a0, a1⟩ | ⟨a0, a2⟩ | ⟨a1, a2⟩ <;>
    rcases hb with ⟨b0, b1⟩ | ⟨b0, b2⟩ | ⟨b1, b2⟩
  · exact Or.inl (c0 ⟨a0, b0⟩)
  · exact Or.inl (c0 ⟨a0, b0⟩)
  · exact Or.inr (Or.inl (c1 ⟨a1, b1⟩))
  · exact Or.inl (c0 ⟨a0, b0⟩)
  · exact Or.inl (c0 ⟨a0, b0⟩)
  · exact Or.inr (Or.inr (c2 ⟨a2, b2⟩))
  · exact Or.inr (Or.inl (c1 ⟨a1, b1⟩))
  · exact Or.inr (Or.inr (c2 ⟨a2, b2⟩))
  · exact Or.inr (Or.inr (c2 ⟨a2, b2⟩))

/-- A brick strictly above another (in z) never intersects it, whatever the
shapes: every branch of the test demands some z contact. -/
theorem intersects_of_below {a b : Brick} (h : b.z_max < a.z_min) :
    a.intersects b = false := by
  by_contra hne
  have ht : a.intersects b = true := by
    cases hab : a.intersects b
    · exact absurd hab hne
    · rfl
  have key : a.start.get 2 ≤ b.end_.get 2 := by
    rcases (intersects_eq_checks a b).1 ht with hc | hc | hc <;>
      rw [checkAt_iff] at hc <;> norm_num at hc <;> omega
  have ha : a.z_min ≤ a.start.z := min_le_left _ _
  have hb2 : b.end_.z ≤ b.z_max := le_max_right _ _
  have : a.start.get 2 = a.start.z := rfl
  have : b.end_.get 2 = b.end_.z := rfl
  omega

theorem one_le_z_max_of_z_min {b : Brick} (h : 1 ≤ b.z_min) : 1 ≤ b.z_max := by
  unfold Brick.z_min at h; unfold Brick.z_max; omega

theorem le_foldl_max (zs : List Int) (a b : Int) (h : b ≤ a) : b ≤ zs.foldl max a := by
  induction zs generalizing a with
  | nil => exact h
  | cons z zs ih => exact ih (max a z) (le_trans h (le_max_left _ _))

theorem mem_le_foldl_max (zs : List Int) (a z : Int) (h : z ∈ zs) : z ≤ zs.foldl max a := by
  induction zs generalizing a with
  | nil => cases h
  | cons w ws ih =>
    rcases List.mem_cons.1 h with rfl | hm
    · exact le_foldl_max ws (max a z) z (le_max_right _ _)
    · exact ih (max a w) hm

/-- Every settled brick's `z_max` is bounded by `maxSettledZ`. -/
theorem z_max_le_maxSettledZ {settled : List Brick} {s : Brick} (h : s ∈ settled) :
    s.z_max ≤ maxSettledZ settled := by
  unfold maxSettledZ
  rcases settled with _ | ⟨t, rest⟩
  · cases h
  · show s.z_max ≤ (rest.map Brick.z_max).foldl max t.z_max
    rcases List.mem_cons.1 h with rfl | hm
    · exact le_foldl_max _ _ _ le_rfl
    · exact mem_le_foldl_max _ _ _ (List.mem_map_of_mem Brick.z_max hm)

/-- `maxSettledZ` is at least 1 whenever every settled brick sits at or
above the floor (and by convention on the empty list). -/
theorem one_le_maxSettledZ {settled : List Brick}
    (h : ∀ s ∈ settled, 1 ≤ s.z_min) : 1 ≤ maxSettledZ settled := by
  unfold maxSettledZ
  rcases settled with _ | ⟨t, rest⟩
  · exact le_rfl
  · show (1 : Int) ≤ (rest.map Brick.z_max).foldl max t.z_max
    exact le_foldl_max _ _ _ (one_le_z_max_of_z_min (h t (List.mem_cons_self t rest)))

/-! ### Lemmas about the one-unit descent loop -/

theorem move_down_one_some {b : Brick} (h : 2 ≤ b.z_min) :
    b.move_down 1 = some (b.shiftZ 1) := by
  rw [move_down_eq, if_pos (by omega)]

theorem move_down_one_none {b : Brick} (h : b.z_min ≤ 1) : b.move_down 1 = none := by
  rw [move_down_eq, if_neg (by omega)]

theorem move_down_some_inv {b d : Brick} (h : b.move_down 1 = some d) :
    d = b.shiftZ 1 ∧ 2 ≤ b.z_min := by
  rw [move_down_eq] at h
  by_cases hz : (1 : Int) < b.z_min
  · rw [if_pos hz] at h
    exact ⟨(Option.some_injective _ h).symm, by omega⟩
  · rw [if_neg hz] at h
    cases h

theorem isEmpty_get_intersection {settled : List Brick} {b : Brick} :
    (get_intersection b settled).isEmpty = true ↔ NoHit settled b := by
  rw [List.isEmpty_iff]
  unfold get_intersection NoHit
  rw [List.filter_eq_nil_iff]
  constructor
  · intro h s hs
    have := h s hs
    simpa using this
  · intro h s hs
    simp [h s hs]

theorem noHit_of_high {settled : List Brick} {b : Brick}
    (h : ∀ s ∈ settled, s.z_max < b.z_min) : NoHit settled b :=
  fun s hs => intersects_of_below (h s hs)

theorem dropLoopF_of_none {settled : List Brick} {b : Brick}
    (h : b.move_down 1 = none) : ∀ f, dropLoopF settled f b = b := by
  intro f
  cases f with
  | zero => rfl
  | succ f => simp only [dropLoopF, h]

theorem dropBrick_of_none {settled : List Brick} {b : Brick}
    (h : b.move_down 1 = none) : dropBrick settled b = b :=
  dropLoopF_of_none h _

theorem dropBrick_step {settled : List Brick} {b d : Brick} (h : b.move_down 1 = some d)
    (he : (get_intersection d settled).isEmpty = true) :
    dropBrick settled b = dropBrick settled d := by
  obtain ⟨rfl, hz⟩ := move_down_some_inv h
  have hzs : (b.shiftZ 1).z_min = b.z_min - 1 := z_min_shiftZ b 1
  have ht : b.z_min.toNat = (b.shiftZ 1).z_min.toNat + 1 := by omega
  show dropLoopF settled b.z_min.toNat b = dropBrick settled (b.shiftZ 1)
  rw [ht]
  simp only [dropLoopF, h, he, if_true]
  rfl

theorem dropBrick_blocked {settled : List Brick} {b d : Brick} (h : b.move_down 1 = some d)
    (he : (get_intersection d settled).isEmpty = false) :
    dropBrick settled b = b := by
  obtain ⟨rfl, hz⟩ := move_down_some_inv h
  have ht : b.z_min.toNat = (b.z_min.toNat - 1) + 1 := by omega
  show dropLoopF settled b.z_min.toNat b = b
  rw [ht]
  simp [dropLoopF, h, he]

/-- Post-conditions of the descent loop: it only ever moves the brick down,
keeps it at or above the floor and free of the settled bricks (if it starts
that way), and stops exactly at the floor or directly on top of some
settled brick. -/
theorem dropBrick_post (settled : List Brick) :
    ∀ (n : Nat) (b : Brick), b.z_min.toNat ≤ n → 1 ≤ b.z_min → NoHit settled b →
      ∃ m : Int, 0 ≤ m ∧ dropBrick settled b = b.shiftZ m ∧
        1 ≤ (dropBrick settled b).z_min ∧ NoHit settled (dropBrick settled b) ∧
        ((dropBrick settled b).z_min = 1 ∨
          ∃ d, (dropBrick settled b).move_down 1 = some d ∧
            ∃ s ∈ settled, d.intersects s = true) := by
  intro n
  induction n with
  | zero =>
    intro b hn h1 hfree
    have hz : b.z_min = 1 := by omega
    have heq : dropBrick settled b = b := dropBrick_of_none (move_down_one_none (by omega))
    exact ⟨0, le_rfl, by rw [heq, shiftZ_zero], by rw [heq]; omega, by rw [heq]; exact hfree,
      Or.inl (by rw [heq]; exact hz)⟩
  | succ n ih =>
    intro b hn h1 hfree
    by_cases hz : 2 ≤ b.z_min
    · have hmd : b.move_down 1 = some (b.shiftZ 1) := move_down_one_some hz
      cases he : (get_intersection (b.shiftZ 1) settled).isEmpty with
      | true =>
        have heq : dropBrick settled b = dropBrick settled (b.shiftZ 1) :=
          dropBrick_step hmd he
        have hz1 : (b.shiftZ 1).z_min = b.z_min - 1 := z_min_shiftZ b 1
        obtain ⟨m, hm, hsh, hge, hnh, hstop⟩ :=
          ih (b.shiftZ 1) (by omega) (by omega) (isEmpty_get_intersection.1 he)
        refine ⟨1 + m, by omega, ?_, ?_, ?_, ?_⟩
        · rw [heq, hsh, shiftZ_shiftZ]
        · rw [heq]; exact hge
        · rw [heq]; exact hnh
        · rw [heq]; exact hstop
      | false =>
        have heq : dropBrick settled b = b := dropBrick_blocked hmd he
        refine ⟨0, le_rfl, by rw [heq, shiftZ_zero], by rw [heq]; omega,
          by rw [heq]; exact hfree, Or.inr ⟨b.shiftZ 1, by rw [heq]; exact hmd, ?_⟩⟩
        have hne : get_intersection (b.shiftZ 1) settled ≠ [] := by
          intro hnil
          rw [← List.isEmpty_iff] at hnil
          rw [he] at hnil
          cases hnil
        obtain ⟨s, hs⟩ := List.exists_mem_of_ne_nil _ hne
        have := List.mem_filter.1 hs
        exact ⟨s, this.1, this.2⟩
    · have hz1 : b.z_min = 1 := by omega
      have heq : dropBrick settled b = b := dropBrick_of_none (move_down_one_none (by omega))
      exact ⟨0, le_rfl, by rw [heq, shiftZ_zero], by rw [heq]; omega, by rw [heq]; exact hfree,
        Or.inl (by rw [heq]; exact hz1)⟩

/-- Descending through guaranteed-free space: if every strictly lower
position down to `b.shiftZ n` (exclusive of the start, inclusive of the
target) is free of the settled bricks and high enough to step into, the
descent from `b` and the descent from `b.shiftZ n` land identically. -/
theorem dropBrick_shift_eq (settled : List Brick) :
    ∀ (n : Nat) (b : Brick),
      (∀ i : Nat, i < n → 1 < b.z_min - i) →
      (∀ i : Nat, 1 ≤ i → i ≤ n → NoHit settled (b.shiftZ i)) →
      dropBrick settled b = dropBrick settled (b.shiftZ n) := by
  intro n
  induction n with
  | zero =>
    intro b _ _
    rw [Nat.cast_zero, shiftZ_zero]
  | succ n ih =>
    intro b hz hfree
    have h0 : (1 : Int) < b.z_min - 0 := hz 0 (Nat.succ_pos n)
    have hmd : b.move_down 1 = some (b.shiftZ 1) := move_down_one_some (by omega)
    have he : (get_intersection (b.shiftZ 1) settled).isEmpty = true :=
      isEmpty_get_intersection.2 (by
        have := hfree 1 le_rfl (by omega)
        simpa using this)
    rw [dropBrick_step hmd he]
    rw [ih (b.shiftZ 1) ?_ ?_]
    · rw [shiftZ_shiftZ]
      have hc : (1 : Int) + (n : Int) = ((n + 1 : Nat) : Int) := by push_cast; ring
      rw [hc]
    · intro i hi
      rw [z_min_shiftZ]
      have := hz (i + 1) (by omega)
      push_cast at this ⊢
      omega
    · intro i h1i hin
      rw [shiftZ_shiftZ]
      have hc : (1 : Int) + (i : Int) = ((i + 1 : Nat) : Int) := by push_cast; ring
      rw [hc]
      exact hfree (i + 1) (by omega) (by omega)

/-- Key blocking lemma.  If line brick `o` was initially disjoint from line
brick `b` and started no higher (by `z_min`) than `b`, then after `o` falls
by `d ≥ 0` it can never intersect `b` lifted by `k ≥ 0`: bricks fall
straight down, so their footprints never change, and `o` cannot have ended
up above `b`'s initial position. -/
theorem blocked_above {o b : Brick} (ho : isLine o) (hb : isLine b)
    (hoz : zNorm o) (hbz : zNorm b) (hdisj : o.intersects b = false)
    (hord : o.z_min ≤ b.z_min) {d k : Int} (hd : 0 ≤ d) (hk : 0 ≤ k) :
    (b.shiftZ (-k)).intersects (o.shiftZ d) = false := by
  cases hx : (b.shiftZ (-k)).intersects (o.shiftZ d) with
  | false => rfl
  | true =>
    exfalso
    obtain ⟨hv0, hv1, hv2⟩ := overlap_of_intersects hx
    have hno : ¬(overlapOn o b 0 ∧ overlapOn o b 1 ∧ overlapOn o b 2) := by
      rintro ⟨u0, u1, u2⟩
      rw [intersects_of_overlap ho hb u0 u1 u2] at hdisj
      cases hdisj
    unfold overlapOn at hv0 hv1 hv2 hno
    obtain ⟨e1, e2, e3, e4⟩ := get_shiftZ_xy b (-k)
    obtain ⟨f1, f2, f3, f4⟩ := get_shiftZ_xy o d
    obtain ⟨g1, g2⟩ := get_shiftZ_z b (-k)
    obtain ⟨g3, g4⟩ := get_shiftZ_z o d
    unfold zNorm at hoz hbz
    unfold Brick.z_min at hord
    have hs1 : o.start.get 2 = o.start.z := rfl
    have hs2 : o.end_.get 2 = o.end_.z := rfl
    have hs3 : b.start.get 2 = b.start.z := rfl
    have hs4 : b.end_.get 2 = b.end_.z := rfl
    omega

/-- A direct supporter of a line brick in a disjoint configuration starts
strictly lower: contact from below means its top face is exactly one below
the supported brick's bottom face. -/
theorem supporter_below {b s : Brick} (hbl : isLine b) (hsl : isLine s)
    (hbz : zNorm b) (hsz : zNorm s) (hdisj : b.intersects s = false)
    (hint : (b.shiftZ 1).intersects s = true) : s.z_min < b.z_min := by
  obtain ⟨hv0, hv1, hv2⟩ := overlap_of_intersects hint
  have hno : ¬(overlapOn b s 0 ∧ overlapOn b s 1 ∧ overlapOn b s 2) := by
    rintro ⟨u0, u1, u2⟩
    rw [intersects_of_overlap hbl hsl u0 u1 u2] at hdisj
    cases hdisj
  unfold overlapOn at hv0 hv1 hv2 hno
  obtain ⟨e1, e2, e3, e4⟩ := get_shiftZ_xy b 1
  obtain ⟨g1, g2⟩ := get_shiftZ_z b 1
  unfold zNorm at hbz hsz
  unfold Brick.z_min
  have hs1 : s.start.get 2 = s.start.z := rfl
  have hs2 : s.end_.get 2 = s.end_.z := rfl
  have hs3 : b.start.get 2 = b.start.z := rfl
  have hs4 : b.end_.get 2 = b.end_.z := rfl
  omega

/-- A supporter's top is at most one unit below the supported brick's
bottom is false in general; what always holds is that contact one unit
below forces the supporter's `z_max` up to at least `z_min - 1`. -/
theorem supporter_reaches {b s : Brick} (hint : (b.shiftZ 1).intersects s = true) :
    b.z_min - 1 ≤ s.z_max := by
  obtain ⟨hv0, hv1, hv2⟩ := overlap_of_intersects hint
  unfold overlapOn at hv2
  obtain ⟨g1, g2⟩ := get_shiftZ_z b 1
  unfold Brick.z_min Brick.z_max
  have hs2 : s.end_.get 2 = s.end_.z := rfl
  have hs3 : b.start.get 2 = b.start.z := rfl
  omega

/-! ### Invariants of the settling fold -/

theorem get_concat_lt (l : List Brick) (t : Brick) (i : Nat) (h : i < l.length)
    (h2 : i < (l ++ [t]).length) : (l ++ [t]).get ⟨i, h2⟩ = l.get ⟨i, h⟩ := by
  rw [List.get_eq_getElem, List.get_eq_getElem]
  exact List.getElem_append_left h

theorem get_concat_last (l : List Brick) (t : Brick)
    (h2 : l.length < (l ++ [t]).length) : (l ++ [t]).get ⟨l.length, h2⟩ = t := by
  rw [List.get_eq_getElem]
  exact List.getElem_concat_length l t l.length rfl h2

/-- Appending the result of one settling iteration preserves the invariant;
the iteration itself never hits the `None` crash. -/
theorem settleStep_inv {settled : List Brick} (hinv : SettledInv settled) (b : Brick) :
    ∃ t, settleStep settled b = some (settled ++ [t]) ∧ SettledInv (settled ++ [t]) := by
  obtain ⟨hz, hpw, hsup⟩ := hinv
  have hM : 1 ≤ maxSettledZ settled := one_le_maxSettledZ hz
  have hstep : settleStep settled b =
      some (settled ++ [dropBrick settled (b.shiftZ (b.z_min - maxSettledZ settled - 1))]) := by
    show (match b.move_down (b.z_min - maxSettledZ settled - 1) with
      | none => none
      | some jumped => some (settled ++ [dropBrick settled jumped])) =
      some (settled ++ [dropBrick settled (b.shiftZ (b.z_min - maxSettledZ settled - 1))])
    rw [move_down_eq, if_pos (by omega)]
  have hjz : (b.shiftZ (b.z_min - maxSettledZ settled - 1)).z_min = maxSettledZ settled + 1 := by
    rw [z_min_shiftZ]; ring
  have hfree : NoHit settled (b.shiftZ (b.z_min - maxSettledZ settled - 1)) :=
    noHit_of_high fun s hs => by
      have := z_max_le_maxSettledZ hs
      omega
  obtain ⟨m, hm, hsh, hge, hnh, hstop⟩ :=
    dropBrick_post settled (b.shiftZ (b.z_min - maxSettledZ settled - 1)).z_min.toNat
      (b.shiftZ (b.z_min - maxSettledZ settled - 1)) le_rfl (by omega) hfree
  refine ⟨dropBrick settled (b.shiftZ (b.z_min - maxSettledZ settled - 1)), hstep, ?_, ?_, ?_⟩
  · intro s hs
    rcases List.mem_append.1 hs with hs | hs
    · exact hz s hs
    · rw [List.mem_singleton.1 hs]
      exact hge
  · refine List.pairwise_append.2 ⟨hpw, List.pairwise_singleton _ _, ?_⟩
    intro a ha x hx
    rw [List.mem_singleton.1 hx]
    refine ⟨?_, hnh a ha⟩
    rw [intersects_symm]
    exact hnh a ha
  · intro i
    by_cases hi : (i : Nat) < settled.length
    · obtain h | ⟨d, hd, jdx, hjne, hint⟩ := hsup ⟨(i : Nat), hi⟩
      · left
        have : ((settled ++ [dropBrick settled (b.shiftZ (b.z_min - maxSettledZ settled - 1))]).get i) =
            settled.get ⟨(i : Nat), hi⟩ := by
          have := get_concat_lt settled _ (i : Nat) hi i.isLt
          simpa using this
        rw [this]
        exact h
      · right
        refine ⟨d, ?_, ?_⟩
        · have : ((settled ++ [dropBrick settled (b.shiftZ (b.z_min - maxSettledZ settled - 1))]).get i) =
              settled.get ⟨(i : Nat), hi⟩ := by
            have := get_concat_lt settled _ (i : Nat) hi i.isLt
            simpa using this
          rw [this]
          exact hd
        · have hjlt : (jdx : Nat) < (settled ++ [dropBrick settled (b.shiftZ (b.z_min - maxSettledZ settled - 1))]).length := by
            simp
            omega
          refine ⟨⟨(jdx : Nat), hjlt⟩, hjne, ?_⟩
          have : ((settled ++ [dropBrick settled (b.shiftZ (b.z_min - maxSettledZ settled - 1))]).get ⟨(jdx : Nat), hjlt⟩) =
              settled.get jdx := by
            have := get_concat_lt settled _ (jdx : Nat) jdx.isLt hjlt
            simpa using this
          rw [this]
          exact hint
    · have hieq : (i : Nat) = settled.length := by
        have := i.isLt
        simp at this
        omega
      have h2 : settled.length < (settled ++ [dropBrick settled (b.shiftZ (b.z_min - maxSettledZ settled - 1))]).length := by
        simp
      have hiF : i = ⟨settled.length, h2⟩ := Fin.ext hieq
      have hgt : ((settled ++ [dropBrick settled (b.shiftZ (b.z_min - maxSettledZ settled - 1))]).get i) =
          dropBrick settled (b.shiftZ (b.z_min - maxSettledZ settled - 1)) := by
        rw [hiF]
        exact get_concat_last settled _ h2
      rw [hgt]
      rcases hstop with h1 | ⟨d, hd, s, hs, hint⟩
      · exact Or.inl h1
      · right
        refine ⟨d, hd, ?_⟩
        obtain ⟨jn, hjn, hjeq⟩ := List.mem_iff_getElem.1 hs
        have hjlt : jn < (settled ++ [dropBrick settled (b.shiftZ (b.z_min - maxSettledZ settled - 1))]).length := by
          simp
          omega
        refine ⟨⟨jn, hjlt⟩, by simp only [Fin.val_mk]; omega, ?_⟩
        have : ((settled ++ [dropBrick settled (b.shiftZ (b.z_min - maxSettledZ settled - 1))]).get ⟨jn, hjlt⟩) =
            settled.get ⟨jn, hjn⟩ := by
          have := get_concat_lt settled _ jn hjn hjlt
          simpa using this
        rw [this, List.get_eq_getElem]
        simp only [hjeq]
        exact hint

/-! ### Shape lemmas for parsed bricks -/

theorem from_triples_cases (p q : Position) :
    Brick.from_triples p q = ⟨p, q⟩ ∨ Brick.from_triples p q = ⟨q, p⟩ := by
  unfold Brick.from_triples
  split
  · exact Or.inr rfl
  · exact Or.inl rfl

theorem from_triples_isLine {p q : Position} (h : LinePair p q) :
    isLine (Brick.from_triples p q) := by
  rcases p with ⟨px, py, pz⟩
  rcases q with ⟨qx, qy, qz⟩
  unfold LinePair at h
  dsimp at h
  rcases from_triples_cases ⟨px, py, pz⟩ ⟨qx, qy, qz⟩ with he | he <;> rw [he] <;>
    simp only [isLine, axisConst, Position.get] <;> omega

theorem from_triples_zNorm {p q : Position} (h : LinePair p q) :
    zNorm (Brick.from_triples p q) := by
  rcases p with ⟨px, py, pz⟩
  rcases q with ⟨qx, qy, qz⟩
  unfold LinePair at h
  dsimp at h
  unfold Brick.from_triples Position.lt
  split
  · rename_i hc
    unfold zNorm
    dsimp
    dsimp at hc
    omega
  · rename_i hc
    unfold zNorm
    dsimp
    dsimp at hc
    omega

theorem from_triples_z_min (p q : Position) :
    (Brick.from_triples p q).z_min = min p.z q.z := by
  rcases from_triples_cases p q with he | he <;>
    (rw [he]; simp [Brick.z_min, min_comm])

theorem isLine_shiftZ {b : Brick} (h : isLine b) (n : Int) : isLine (b.shiftZ n) := by
  rcases b with ⟨⟨x1, y1, z1⟩, ⟨x2, y2, z2⟩⟩
  unfold isLine axisConst Position.get Brick.shiftZ at *
  dsimp at *
  omega

theorem zNorm_shiftZ {b : Brick} (h : zNorm b) (n : Int) : zNorm (b.shiftZ n) := by
  unfold zNorm Brick.shiftZ at *
  dsimp
  omega

/-! ### Equivalence of the fast-forward jump with the plain descent -/

/-- Master induction: on well-formed, sorted input the settling fold with
the fast-forward jump computes exactly what the jump-free fold computes,
never crashes, and its output consists of input bricks dropped in place. -/
theorem settle_nojump_eq : ∀ (l settled : List Brick),
    (∀ s ∈ settled, 1 ≤ s.z_min) →
    TracksInput settled l →
    (∀ b ∈ l, isLine b ∧ zNorm b ∧ 1 ≤ b.z_min) →
    l.Pairwise (fun a b => a.intersects b = false) →
    l.Sorted zle →
    settleFold settled l = some (settleFoldNJ settled l) ∧
      (∀ s ∈ settleFoldNJ settled l, 1 ≤ s.z_min) ∧
      TracksInput (settleFoldNJ settled l) [] := by
  intro l
  induction l with
  | nil =>
    intro settled h1 h2 _ _ _
    refine ⟨rfl, h1, ?_⟩
    intro s hs
    obtain ⟨o, m, hm, rfl, hol, hoz, _⟩ := h2 s hs
    exact ⟨o, m, hm, rfl, hol, hoz, by simp⟩
  | cons b rest ih =>
    intro settled hz htr hfacts hpw hsort
    obtain ⟨hbl, hbz, hb1⟩ := hfacts b (List.mem_cons_self b rest)
    have hM : 1 ≤ maxSettledZ settled := one_le_maxSettledZ hz
    have hfreeUp : ∀ k : Int, 0 ≤ k → NoHit settled (b.shiftZ (-k)) := by
      intro k hk s hs
      obtain ⟨o, m, hm, rfl, hol, hoz, hrel⟩ := htr s hs
      exact blocked_above hol hbl hoz hbz (hrel b (List.mem_cons_self b rest)).1
        (hrel b (List.mem_cons_self b rest)).2 hm hk
    have heq : dropBrick settled (b.shiftZ (b.z_min - maxSettledZ settled - 1)) =
        dropBrick settled b := by
      by_cases hcase : maxSettledZ settled + 1 ≤ b.z_min
      · have hn : b.shiftZ (b.z_min - maxSettledZ settled - 1) =
            b.shiftZ (((b.z_min - maxSettledZ settled - 1).toNat : Nat) : Int) := by
          congr 1
          omega
        rw [hn]
        refine (dropBrick_shift_eq settled _ b ?_ ?_).symm
        · intro i hi
          omega
        · intro i h1i hin
          apply noHit_of_high
          intro s hs
          rw [z_min_shiftZ]
          have := z_max_le_maxSettledZ hs
          omega
      · push_neg at hcase
        have hjump : b.shiftZ (b.z_min - maxSettledZ settled - 1) =
            b.shiftZ (-(maxSettledZ settled + 1 - b.z_min)) := by
          congr 1
          ring
        rw [hjump]
        have hres := dropBrick_shift_eq settled (maxSettledZ settled + 1 - b.z_min).toNat
          (b.shiftZ (-(maxSettledZ settled + 1 - b.z_min))) ?_ ?_
        · rw [shiftZ_shiftZ] at hres
          have hc : -(maxSettledZ settled + 1 - b.z_min) +
              (((maxSettledZ settled + 1 - b.z_min).toNat : Nat) : Int) = 0 := by
            omega
          rw [hc, shiftZ_zero] at hres
          exact hres
        · intro i hi
          rw [z_min_shiftZ]
          omega
        · intro i h1i hik
          rw [shiftZ_shiftZ]
          have hc : -(maxSettledZ settled + 1 - b.z_min) + ((i : Nat) : Int) =
              -(maxSettledZ settled + 1 - b.z_min - (i : Int)) := by
            ring
          rw [hc]
          exact hfreeUp _ (by omega)
    have hstep : settleStep settled b = some (settled ++ [dropBrick settled b]) := by
      show (match b.move_down (b.z_min - maxSettledZ settled - 1) with
        | none => none
        | some jumped => some (settled ++ [dropBrick settled jumped])) =
        some (settled ++ [dropBrick settled b])
      rw [move_down_eq, if_pos (by omega)]
      show some (settled ++ [dropBrick settled (b.shiftZ (b.z_min - maxSettledZ settled - 1))]) =
        some (settled ++ [dropBrick settled b])
      rw [heq]
    have hfree0 : NoHit settled b := by
      have h0 := hfreeUp 0 le_rfl
      rw [neg_zero, shiftZ_zero] at h0
      exact h0
    obtain ⟨m, hm, hsh, hge, hnh, hstop⟩ :=
      dropBrick_post settled b.z_min.toNat b le_rfl hb1 hfree0
    have hz' : ∀ s ∈ settled ++ [dropBrick settled b], 1 ≤ s.z_min := by
      intro s hs
      rcases List.mem_append.1 hs with hs | hs
      · exact hz s hs
      · rw [List.mem_singleton.1 hs]
        exact hge
    have htr' : TracksInput (settled ++ [dropBrick settled b]) rest := by
      intro s hs
      rcases List.mem_append.1 hs with hs | hs
      · obtain ⟨o, m2, hm2, rfl, hol, hoz, hrel⟩ := htr s hs
        exact ⟨o, m2, hm2, rfl, hol, hoz, fun b2 hb2 => hrel b2 (List.mem_cons_of_mem b hb2)⟩
      · rw [List.mem_singleton.1 hs]
        refine ⟨b, m, hm, hsh, hbl, hbz, ?_⟩
        intro b2 hb2
        exact ⟨List.rel_of_pairwise_cons hpw hb2, List.rel_of_sorted_cons hsort b2 hb2⟩
    obtain ⟨hfoldeq, hfin1, hfin2⟩ := ih (settled ++ [dropBrick settled b]) hz' htr'
      (fun b2 hb2 => hfacts b2 (List.mem_cons_of_mem b hb2))
      (List.pairwise_cons.1 hpw).2 (List.sorted_cons.1 hsort).2
    refine ⟨?_, hfin1, hfin2⟩
    show settleFold settled (b :: rest) = some (settleFoldNJ settled (b :: rest))
    simp only [settleFold, hstep, settleFoldNJ, settleStepNJ]
    exact hfoldeq

theorem settledInv_nil : SettledInv [] := by
  refine ⟨by simp, List.Pairwise.nil, ?_⟩
  intro i
  exact absurd i.isLt (by simp)

/-- Value-level form of support soundness, with the strict height drop of
each supporter (line bricks only). -/
theorem valueSupport {settled : List Brick}
    (hl : ∀ t ∈ settled, isLine t ∧ zNorm t)
    (hpw : settled.Pairwise fun a b => a.intersects b = false ∧ b.intersects a = false)
    (hsup : SupportAt settled) :
    ∀ b ∈ settled, b.z_min = 1 ∨
      ∃ s ∈ settled, (b.shiftZ 1).intersects s = true ∧ s.z_min < b.z_min := by
  intro b hb
  obtain ⟨i, hieq⟩ := List.mem_iff_get.1 hb
  obtain h1 | ⟨d, hd, j, hjne, hint⟩ := hsup i
  · left
    rw [← hieq]
    exact h1
  · right
    obtain ⟨rfl, hz2⟩ := move_down_some_inv hd
    have hjmem : settled.get j ∈ settled := List.mem_iff_get.2 ⟨j, rfl⟩
    have hdisj : (settled.get i).intersects (settled.get j) = false := by
      have hpg := List.pairwise_iff_get.1 hpw
      rcases Nat.lt_or_ge (j : Nat) (i : Nat) with hlt | hge
      · exact (hpg j i hlt).2
      · have : (i : Nat) < (j : Nat) := by omega
        exact (hpg i j this).1
    obtain ⟨hbl, hbz⟩ := hl (settled.get i) (List.mem_iff_get.2 ⟨i, rfl⟩)
    obtain ⟨hsl, hsz⟩ := hl (settled.get j) hjmem
    have hstrict : (settled.get j).z_min < (settled.get i).z_min :=
      supporter_below hbl hsl hbz hsz hdisj hint
    rw [← hieq]
    exact ⟨settled.get j, hjmem, hint, hstrict⟩

/-- Fixed-point induction for re-settling: if the combined configuration
`pre ++ l` is pairwise disjoint, supported, made of line bricks, with `pre`
no higher than `l` and `l` sorted, then settling `l` onto `pre` leaves
every brick exactly in place. -/
theorem settleFold_fixpoint : ∀ (l pre : List Brick),
    (∀ t ∈ pre ++ l, isLine t ∧ zNorm t ∧ 1 ≤ t.z_min) →
    (pre ++ l).Pairwise (fun a b => a.intersects b = false ∧ b.intersects a = false) →
    (∀ t ∈ pre, ∀ b ∈ l, t.z_min ≤ b.z_min) →
    l.Sorted zle →
    (∀ b ∈ pre ++ l, b.z_min = 1 ∨
      ∃ s ∈ pre ++ l, (b.shiftZ 1).intersects s = true ∧ s.z_min < b.z_min) →
    settleFold pre l = some (pre ++ l) := by
  intro l
  induction l with
  | nil =>
    intro pre _ _ _ _ _
    simp [settleFold]
  | cons b rest ih =>
    intro pre hfacts hpw hord hsort hsup
    have hbmem : b ∈ pre ++ b :: rest := by simp
    obtain ⟨hbl, hbz, hb1⟩ := hfacts b hbmem
    have hzpre : ∀ s ∈ pre, 1 ≤ s.z_min := fun s hs => (hfacts s (by simp [hs])).2.2
    have hM : 1 ≤ maxSettledZ pre := one_le_maxSettledZ hzpre
    have hsupInPre : ∀ s ∈ pre ++ b :: rest, (b.shiftZ 1).intersects s = true →
        s.z_min < b.z_min → s ∈ pre := by
      intro s hs _ hlt
      rcases List.mem_append.1 hs with h | h
      · exact h
      · exfalso
        rcases List.mem_cons.1 h with rfl | h
        · omega
        · have := List.rel_of_sorted_cons hsort s h
          unfold zle at this
          omega
    have hMb : b.z_min ≤ maxSettledZ pre + 1 := by
      rcases hsup b hbmem with h1 | ⟨s, hs, hint, hlt⟩
      · omega
      · have hspre : s ∈ pre := hsupInPre s hs hint hlt
        have h1 := supporter_reaches hint
        have h2 := z_max_le_maxSettledZ hspre
        omega
    have hfreeUp : ∀ k : Int, 0 ≤ k → NoHit pre (b.shiftZ (-k)) := by
      intro k hk s hs
      obtain ⟨hsl, hsz, _⟩ := hfacts s (by simp [hs])
      have hdisj : s.intersects b = false :=
        ((List.pairwise_append.1 hpw).2.2 s hs b (List.mem_cons_self b rest)).1
      have hord2 : s.z_min ≤ b.z_min := hord s hs b (List.mem_cons_self b rest)
      have hres := blocked_above hsl hbl hsz hbz hdisj hord2 (le_refl 0) hk
      rw [shiftZ_zero] at hres
      exact hres
    have hdropb : dropBrick pre b = b := by
      rcases hsup b hbmem with h1 | ⟨s, hs, hint, hlt⟩
      · exact dropBrick_of_none (move_down_one_none (by omega))
      · have hspre : s ∈ pre := hsupInPre s hs hint hlt
        have hs1 : 1 ≤ s.z_min := hzpre s hspre
        have hmd : b.move_down 1 = some (b.shiftZ 1) := move_down_one_some (by omega)
        have hememf : (get_intersection (b.shiftZ 1) pre).isEmpty = false := by
          have hmem : s ∈ get_intersection (b.shiftZ 1) pre :=
            List.mem_filter.2 ⟨hspre, hint⟩
          cases hemp : (get_intersection (b.shiftZ 1) pre).isEmpty with
          | false => rfl
          | true =>
            exfalso
            rw [List.isEmpty_iff] at hemp
            rw [hemp] at hmem
            cases hmem
        exact dropBrick_blocked hmd hememf
    have heq : dropBrick pre (b.shiftZ (b.z_min - maxSettledZ pre - 1)) = dropBrick pre b := by
      have hjump : b.shiftZ (b.z_min - maxSettledZ pre - 1) =
          b.shiftZ (-(maxSettledZ pre + 1 - b.z_min)) := by
        congr 1
        ring
      rw [hjump]
      have hres := dropBrick_shift_eq pre (maxSettledZ pre + 1 - b.z_min).toNat
        (b.shiftZ (-(maxSettledZ pre + 1 - b.z_min))) ?_ ?_
      · rw [shiftZ_shiftZ] at hres
        have hc : -(maxSettledZ pre + 1 - b.z_min) +
            (((maxSettledZ pre + 1 - b.z_min).toNat : Nat) : Int) = 0 := by
          omega
        rw [hc, shiftZ_zero] at hres
        exact hres
      · intro i hi
        rw [z_min_shiftZ]
        omega
      · intro i h1i hik
        rw [shiftZ_shiftZ]
        have hc : -(maxSettledZ pre + 1 - b.z_min) + ((i : Nat) : Int) =
            -(maxSettledZ pre + 1 - b.z_min - (i : Int)) := by
          ring
        rw [hc]
        exact hfreeUp _ (by omega)
    have hstep : settleStep pre b = some (pre ++ [b]) := by
      show (match b.move_down (b.z_min - maxSettledZ pre - 1) with
        | none => none
        | some jumped => some (pre ++ [dropBrick pre jumped])) = some (pre ++ [b])
      rw [move_down_eq, if_pos (by omega)]
      show some (pre ++ [dropBrick pre (b.shiftZ (b.z_min - maxSettledZ pre - 1))]) =
        some (pre ++ [b])
      rw [heq, hdropb]
    have hassoc : (pre ++ [b]) ++ rest = pre ++ b :: rest := by simp
    have hrec := ih (pre ++ [b]) ?_ ?_ ?_ ?_ ?_
    · show settleFold pre (b :: rest) = some (pre ++ b :: rest)
      simp only [settleFold, hstep]
      rw [hrec, hassoc]
    · rw [hassoc]
      exact hfacts
    · rw [hassoc]
      exact hpw
    · intro t ht b2 hb2
      rcases List.mem_append.1 ht with h | h
      · exact hord t h b2 (List.mem_cons_of_mem b hb2)
      · rw [List.mem_singleton.1 h]
        exact List.rel_of_sorted_cons hsort b2 hb2
    · exact (List.sorted_cons.1 hsort).2
    · rw [hassoc]
      exact hsup

/-- Running the settling fold from any invariant-satisfying state succeeds
and preserves the invariant. -/
theorem settleFold_inv : ∀ (l settled : List Brick), SettledInv settled →
    ∃ out, settleFold settled l = some out ∧ SettledInv out := by
  intro l
  induction l with
  | nil => exact fun settled h => ⟨settled, rfl, h⟩
  | cons b rest ih =>
    intro settled h
    obtain ⟨t, hstep, hinv'⟩ := settleStep_inv h b
    obtain ⟨out, hfold, hout⟩ := ih _ hinv'
    refine ⟨out, ?_, hout⟩
    simp only [settleFold, hstep]
    exact hfold

/-! ### Facts about parsed, sorted well-formed input -/

theorem parsed_mem_facts {input : List (Position × Position)} (h : WellFormed input) :
    ∀ b ∈ sortZ (parseLines input), isLine b ∧ zNorm b ∧ 1 ≤ b.z_min := by
  intro b hb
  have hb2 : b ∈ parseLines input :=
    (List.perm_insertionSort zle (parseLines input)).mem_iff.1 hb
  obtain ⟨pq, hpq, rfl⟩ := List.mem_map.1 hb2
  obtain ⟨hlp, h1, h2⟩ := h.1 pq hpq
  refine ⟨from_triples_isLine hlp, from_triples_zNorm hlp, ?_⟩
  rw [from_triples_z_min]
  omega

theorem parsed_pairwise_symm {input : List (Position × Position)} (h : WellFormed input) :
    (sortZ (parseLines input)).Pairwise
      fun a b => a.intersects b = false ∧ b.intersects a = false := by
  have h2 : (parseLines input).Pairwise
      (fun a b => a.intersects b = false ∧ b.intersects a = false) :=
    h.2.imp fun hab => ⟨hab, by rw [intersects_symm]; exact hab⟩
  exact ((List.perm_insertionSort zle (parseLines input)).pairwise_iff
    fun hab => ⟨hab.2, hab.1⟩).2 h2

theorem parsed_sorted (input : List (Position × Position)) :
    (sortZ (parseLines input)).Sorted zle :=
  List.sorted_insertionSort zle (parseLines input)

theorem get_settled_inv (input : List (Position × Position)) :
    ∃ out, get_settled_bricks input = some out ∧ SettledInv out := by
  obtain ⟨out, hf, hinv⟩ := settleFold_inv (sortZ (parseLines input)) [] settledInv_nil
  exact ⟨out, hf, hinv⟩

/-! ### The `part1` support set versus the spec's critical supporters -/

theorem dedup_eq_single_iff {l : List Brick} {x : Brick} :
    l.dedup = [x] ↔ x ∈ l ∧ ∀ y ∈ l, y = x := by
  constructor
  · intro h
    constructor
    · exact List.mem_dedup.1 (by rw [h]; exact List.mem_singleton.2 rfl)
    · intro y hy
      have : y ∈ l.dedup := List.mem_dedup.2 hy
      rw [h] at this
      exact List.mem_singleton.1 this
  · rintro ⟨hx, hall⟩
    have hmem : x ∈ l.dedup := List.mem_dedup.2 hx
    have hnd : l.dedup.Nodup := List.nodup_dedup l
    have hall2 : ∀ y ∈ l.dedup, y = x := fun y hy => hall y (List.mem_dedup.1 hy)
    rcases hdd : l.dedup with _ | ⟨a, rest⟩
    · rw [hdd] at hmem
      cases hmem
    · rw [hdd] at hall2 hnd
      have hax : a = x := hall2 a (List.mem_cons_self a rest)
      rcases rest with _ | ⟨c, rest2⟩
      · rw [hax]
      · exfalso
        have hcx : c = x := hall2 c (by simp)
        have hanotin : a ∉ c :: rest2 := (List.nodup_cons.1 hnd).1
        apply hanotin
        rw [hax, ← hcx]
        exact List.mem_cons_self c rest2

theorem soleSupporter_some_elim {settled : List Brick} {i : Nat} {x : Brick}
    (h : soleSupporter settled i = some x) :
    ∃ down, (settled.getD i default).move_down 1 = some down ∧
      x ∈ get_intersection down (others settled i) ∧
        ∀ t ∈ get_intersection down (others settled i), t = x := by
  unfold soleSupporter at h
  split at h
  · cases h
  · rename_i down hmd
    split at h
    · rename_i b hdd
      have hbx : b = x := Option.some_inj.1 h
      subst hbx
      exact ⟨down, hmd, dedup_eq_single_iff.1 hdd⟩
    · cases h

theorem soleSupporter_some_intro {settled : List Brick} {i : Nat} {x down : Brick}
    (hmd : (settled.getD i default).move_down 1 = some down)
    (hmem : x ∈ get_intersection down (others settled i))
    (hall : ∀ t ∈ get_intersection down (others settled i), t = x) :
    soleSupporter settled i = some x := by
  unfold soleSupporter
  rw [hmd]
  show (match (get_intersection down (others settled i)).dedup with
    | [b] => some b
    | _ => none) = some x
  rw [dedup_eq_single_iff.2 ⟨hmem, hall⟩]

theorem supportFinset_mem_aux (settled : List Brick) :
    ∀ (idxs : List Nat) (acc : Finset Brick) (x : Brick),
      (x ∈ idxs.foldl (fun acc i =>
        match soleSupporter settled i with
        | some b => insert b acc
        | none => acc) acc ↔
      x ∈ acc ∨ ∃ i ∈ idxs, soleSupporter settled i = some x) := by
  intro idxs
  induction idxs with
  | nil =>
    intro acc x
    simp
  | cons i rest ih =>
    intro acc x
    rw [List.foldl_cons, ih]
    cases hsi : soleSupporter settled i with
    | none =>
      simp only [hsi, List.exists_mem_cons_iff]
      constructor
      · intro h
        rcases h with h | h
        · exact Or.inl h
        · exact Or.inr (Or.inr h)
      · intro h
        rcases h with h | h | h
        · exact Or.inl h
        · cases h
        · exact Or.inr h
    | some b =>
      simp only [hsi, Finset.mem_insert, List.exists_mem_cons_iff, Option.some_inj]
      constructor
      · intro h
        rcases h with (h | h) | h
        · exact Or.inr (Or.inl h.symm)
        · exact Or.inl h
        · exact Or.inr (Or.inr h)
      · intro h
        rcases h with h | h | h
        · exact Or.inl (Or.inr h)
        · exact Or.inl (Or.inl h.symm)
        · exact Or.inr h

theorem mem_supportFinset_iff {settled : List Brick} {x : Brick} :
    x ∈ supportFinset settled ↔
      ∃ i ∈ List.range settled.length, soleSupporter settled i = some x := by
  unfold supportFinset
  rw [supportFinset_mem_aux]
  simp

theorem soleSupporter_mem {settled : List Brick} {i : Nat} {x : Brick}
    (h : soleSupporter settled i = some x) : x ∈ settled := by
  obtain ⟨down, _, hmem, _⟩ := soleSupporter_some_elim h
  have hx : x ∈ others settled i := (List.mem_filter.1 hmem).1
  unfold others at hx
  rcases List.mem_append.1 hx with h2 | h2
  · exact List.take_subset _ _ h2
  · exact List.drop_subset _ _ h2

theorem isCritical_iff {settled : List Brick} {x : Brick} :
    IsCriticalSupporter settled x ↔
      ∃ i ∈ List.range settled.length, soleSupporter settled i = some x := by
  constructor
  · rintro ⟨i, hP⟩
    cases hmd : (settled.get i).move_down 1 with
    | none =>
      rw [hmd] at hP
      exact hP.elim
    | some down =>
      rw [hmd] at hP
      obtain ⟨hmem, hall⟩ := hP
      refine ⟨(i : Nat), List.mem_range.2 i.isLt, ?_⟩
      refine soleSupporter_some_intro ?_ hmem hall
      rw [List.getD_eq_getElem settled default i.isLt]
      rw [List.get_eq_getElem] at hmd
      exact hmd
  · rintro ⟨i, hir, hsole⟩
    have hi : i < settled.length := List.mem_range.1 hir
    obtain ⟨down, hmd, hmem, hall⟩ := soleSupporter_some_elim hsole
    refine ⟨⟨i, hi⟩, ?_⟩
    have hg : (settled.get ⟨i, hi⟩).move_down 1 = some down := by
      rw [List.get_eq_getElem, ← List.getD_eq_getElem settled default hi]
      exact hmd
    rw [hg]
    exact ⟨hmem, hall⟩

theorem supportFinset_eq_critical (settled : List Brick) :
    supportFinset settled = criticalFinset settled := by
  ext x
  rw [mem_supportFinset_iff]
  unfold criticalFinset
  rw [Finset.mem_filter, List.mem_toFinset]
  constructor
  · rintro ⟨i, hir, hs⟩
    exact ⟨soleSupporter_mem hs, isCritical_iff.2 ⟨i, hir, hs⟩⟩
  · rintro ⟨_, hc⟩
    exact isCritical_iff.1 hc

/-! ### The chain-reaction trial for a brick with no dependents -/

theorem cascadeRun_no_dependents {edges : List (Brick × Brick)} {r : Brick}
    (h : adjOf edges r = []) : cascadeRun edges r = 0 := by
  unfold cascadeRun
  show cascadeLoop edges (edges.length + 1) (indeg0 edges) [r] 0 = 0
  have hrelax : relaxFold (adjOf edges r) (indeg0 edges, [], 0) = (indeg0 edges, [], 0) := by
    rw [h]
    rfl
  simp only [cascadeLoop, hrelax]
  cases hl : edges.length with
  | zero => rfl
  | succ n => rfl

/-! ### The claims -/

/-- C1: for every input, the list returned by `get_settled_bricks`
satisfies: no two bricks at distinct positions intersect (per the
`intersects` predicate), and every settled brick either has `z_min = 1` or,
moved down one unit, intersects at least one other settled brick. -/
theorem c1_settled_disjoint_supported (input : List (Position × Position))
    (settled : List Brick) (h : get_settled_bricks input = some settled) :
    (∀ i j : Fin settled.length, (i : Nat) ≠ (j : Nat) →
      (settled.get i).intersects (settled.get j) = false) ∧
    (∀ i : Fin settled.length, (settled.get i).z_min = 1 ∨
      ∃ down, (settled.get i).move_down 1 = some down ∧
        ∃ j : Fin settled.length, (j : Nat) ≠ (i : Nat) ∧
          down.intersects (settled.get j) = true) := by
  obtain ⟨out, hf, hinv⟩ := get_settled_inv input
  rw [h] at hf
  obtain rfl : settled = out := Option.some_inj.1 hf
  obtain ⟨_, hpw, hsup⟩ := hinv
  constructor
  · intro i j hne
    have hpg := List.pairwise_iff_get.1 hpw
    rcases Nat.lt_or_ge (i : Nat) (j : Nat) with hlt | hge
    · exact (hpg i j hlt).1
    · have hlt2 : (j : Nat) < (i : Nat) := by omega
      exact (hpg j i hlt2).2
  · exact hsup

/-- Witness for C1 at the canonical example input. -/
theorem c1_witness :
    get_settled_bricks exInput = some exSettled ∧
    ((∀ i j : Fin exSettled.length, (i : Nat) ≠ (j : Nat) →
      (exSettled.get i).intersects (exSettled.get j) = false) ∧
    (∀ i : Fin exSettled.length, (exSettled.get i).z_min = 1 ∨
      ∃ down, (exSettled.get i).move_down 1 = some down ∧
        ∃ j : Fin exSettled.length, (j : Nat) ≠ (i : Nat) ∧
          down.intersects (exSettled.get j) = true)) :=
  ⟨by decide, c1_settled_disjoint_supported exInput exSettled (by decide)⟩

/-- C2: on the canonical 7-brick example input, `part1` returns 5 and
`part2` returns 7. -/
theorem c2_example_answers : part1 exInput = some 5 ∧ part2 exInput = some 7 := by
  constructor
  · decide
  · decide

/-- C3: `part1` returns the number of settled bricks minus the number of
distinct critical supporters, where a settled brick is critical iff it is
the sole brick that some other settled brick would intersect when moved
down one unit, the mover itself excluded from the intersection test. -/
theorem c3_part1_eq_critical (input : List (Position × Position)) :
    part1 input = (get_settled_bricks input).map fun settled =>
      settled.length - (criticalFinset settled).card := by
  unfold part1
  cases get_settled_bricks input with
  | none => rfl
  | some settled => simp [supportFinset_eq_critical]

/-- C4: on well-formed input, `get_settled_bricks` returns exactly the
settled list of the variant that omits the fast-forward jump and always
lowers each brick one unit at a time. -/
theorem c4_jump_free_equivalence (input : List (Position × Position))
    (h : WellFormed input) :
    get_settled_bricks input = some (get_settled_bricks_nojump input) := by
  have hfacts := parsed_mem_facts h
  have hone : (sortZ (parseLines input)).Pairwise fun a b => a.intersects b = false :=
    (parsed_pairwise_symm h).imp fun hab => hab.1
  have hmain := settle_nojump_eq (sortZ (parseLines input)) [] (by simp)
    (fun s hs => absurd hs (List.not_mem_nil s)) hfacts hone (parsed_sorted input)
  exact hmain.1

/-- Witness for C4 at the canonical example input. -/
theorem c4_witness :
    WellFormed exInput ∧
      get_settled_bricks exInput = some (get_settled_bricks_nojump exInput) :=
  ⟨by decide, c4_jump_free_equivalence exInput (by decide)⟩

/-- C5 counterexample: a well-formed input whose settled configuration,
fed back to the settling simulator, is returned in a different order (the
simulator re-sorts by the new `z_min` values), so the result is not the
same list. -/
theorem c5_counterexample :
    WellFormed cexInput ∧ get_settled_bricks cexInput = some cexSettled ∧
      settleConfig cexSettled ≠ some cexSettled := by
  refine ⟨by decide, by decide, by decide⟩

/-- C5 as amended: on well-formed input, re-running the settling simulator
on the settled configuration succeeds and reproduces exactly the same
bricks, each in its settled position, merely re-sorted by `z_min`: the
output is a permutation of the settled list (and no brick moves). -/
theorem c5_resettle_perm (input : List (Position × Position)) (h : WellFormed input)
    (settled : List Brick) (hs : get_settled_bricks input = some settled) :
    settleConfig settled = some (sortZ settled) ∧ (sortZ settled).Perm settled := by
  obtain ⟨out, hf, hinv⟩ := get_settled_inv input
  rw [hs] at hf
  obtain rfl : settled = out := Option.some_inj.1 hf
  obtain ⟨hz1, hpw, hsup⟩ := hinv
  have hfacts := parsed_mem_facts h
  have hone : (sortZ (parseLines input)).Pairwise fun a b => a.intersects b = false :=
    (parsed_pairwise_symm h).imp fun hab => hab.1
  have hmain := settle_nojump_eq (sortZ (parseLines input)) [] (by simp)
    (fun s hs2 => absurd hs2 (List.not_mem_nil s)) hfacts hone (parsed_sorted input)
  have hNJeq : settled = settleFoldNJ [] (sortZ (parseLines input)) :=
    Option.some_inj.1 (hs.symm.trans hmain.1)
  have hlz : ∀ t ∈ settled, isLine t ∧ zNorm t := by
    intro t ht
    rw [hNJeq] at ht
    obtain ⟨o, m, hm, rfl, hol, hoz, _⟩ := hmain.2.2 t ht
    exact ⟨isLine_shiftZ hol m, zNorm_shiftZ hoz m⟩
  have hvsup := valueSupport hlz hpw hsup
  have hperm : (sortZ settled).Perm settled := List.perm_insertionSort zle settled
  have hfix := settleFold_fixpoint (sortZ settled) [] ?_ ?_ ?_ ?_ ?_
  · refine ⟨?_, hperm⟩
    show settleFold [] (sortZ settled) = some (sortZ settled)
    rw [hfix]
    rw [List.nil_append]
  · simp only [List.nil_append]
    intro t ht
    have hts : t ∈ settled := hperm.mem_iff.1 ht
    exact ⟨(hlz t hts).1, (hlz t hts).2, hz1 t hts⟩
  · simp only [List.nil_append]
    exact (hperm.pairwise_iff fun hab => ⟨hab.2, hab.1⟩).2 hpw
  · intro t ht
    cases ht
  · exact List.sorted_insertionSort zle settled
  · simp only [List.nil_append]
    intro b hb
    rcases hvsup b (hperm.mem_iff.1 hb) with h1 | ⟨s, hsmem, hint, hlt⟩
    · exact Or.inl h1
    · exact Or.inr ⟨s, hperm.mem_iff.2 hsmem, hint, hlt⟩

/-- Witness for the amended C5 at the canonical example input. -/
theorem c5_witness :
    (WellFormed exInput ∧ get_settled_bricks exInput = some exSettled) ∧
      settleConfig exSettled = some (sortZ exSettled) ∧
        (sortZ exSettled).Perm exSettled :=
  ⟨⟨by decide, by decide⟩, c5_resettle_perm exInput (by decide) exSettled (by decide)⟩

/-- C6 counterexample: parsing the triples `(0,5,0)` and `(1,2,3)` (which
differ in more than one coordinate) keeps `(0,5,0)` as `start` because it
is lexicographically smaller, yet `start.y = 5 > 2 = end.y`: element-wise
`start ≤ end` does not hold for every parse. -/
theorem c6_counterexample : ¬ elemLe (Brick.from_triples ⟨0, 5, 0⟩ ⟨1, 2, 3⟩) := by
  decide

/-- C6 as amended: `Brick.from_str` sorts the two endpoint triples, so the
parsed brick's `start` is the lexicographically smaller triple (Python
tuple order) and the endpoint pair is preserved; element-wise `start ≤ end`
is only guaranteed when the triples differ in at most one coordinate. -/
theorem c6_lex_normalized (p q : Position) :
    Position.le (Brick.from_triples p q).start (Brick.from_triples p q).end_ ∧
      (Brick.from_triples p q = ⟨p, q⟩ ∨ Brick.from_triples p q = ⟨q, p⟩) := by
  refine ⟨?_, from_triples_cases p q⟩
  rcases p with ⟨px, py, pz⟩
  rcases q with ⟨qx, qy, qz⟩
  unfold Brick.from_triples Position.lt
  split
  · rename_i hc
    dsimp at hc
    unfold Position.le
    dsimp
    omega
  · rename_i hc
    dsimp at hc
    unfold Position.le
    dsimp
    omega

/-- C7: `move_down n` returns the sentinel `none` iff either endpoint's z
coordinate is at most `n`; otherwise it returns the brick with both z
coordinates decreased by `n` and x, y unchanged. -/
theorem c7_move_down_spec (b : Brick) (n : Int) :
    (b.move_down n = none ↔ b.start.z ≤ n ∨ b.end_.z ≤ n) ∧
      ∀ b2, b.move_down n = some b2 →
        b2.start = ⟨b.start.x, b.start.y, b.start.z - n⟩ ∧
          b2.end_ = ⟨b.end_.x, b.end_.y, b.end_.z - n⟩ := by
  constructor
  · rw [move_down_eq]
    by_cases hlt : n < b.z_min
    · rw [if_pos hlt]
      unfold Brick.z_min at hlt
      constructor
      · intro h
        cases h
      · intro h
        exfalso
        omega
    · rw [if_neg hlt]
      unfold Brick.z_min at hlt
      constructor
      · intro _
        omega
      · intro _
        rfl
  · intro b2 h
    rw [move_down_eq] at h
    by_cases hlt : n < b.z_min
    · rw [if_pos hlt] at h
      obtain rfl : b.shiftZ n = b2 := Option.some_inj.1 h
      exact ⟨rfl, rfl⟩
    · rw [if_neg hlt] at h
      cases h

/-- C8: the intersection predicate is symmetric. -/
theorem c8_intersects_symmetric (a b : Brick) : a.intersects b = b.intersects a :=
  intersects_symm a b

/-- C9: a settled brick with no outgoing edge in the support graph (it
supports nothing) has a chain-reaction trial that counts zero falls, so it
contributes 0 to `part2`'s total. -/
theorem c9_no_dependents_zero (input : List (Position × Position))
    (settled : List Brick) (r : Brick) (_h : get_settled_bricks input = some settled)
    (_hr : r ∈ settled) (hadj : adjOf (buildEdges settled) r = []) :
    cascadeRun (buildEdges settled) r = 0 :=
  cascadeRun_no_dependents hadj

/-- Witness for C9: the topmost example brick supports nothing. -/
theorem c9_witness :
    (get_settled_bricks exInput = some exSettled ∧
      (⟨⟨1, 1, 5⟩, ⟨1, 1, 6⟩⟩ : Brick) ∈ exSettled ∧
      adjOf (buildEdges exSettled) ⟨⟨1, 1, 5⟩, ⟨1, 1, 6⟩⟩ = []) ∧
    cascadeRun (buildEdges exSettled) ⟨⟨1, 1, 5⟩, ⟨1, 1, 6⟩⟩ = 0 :=
  ⟨⟨by decide, by decide, by decide⟩,
    c9_no_dependents_zero exInput exSettled ⟨⟨1, 1, 5⟩, ⟨1, 1, 6⟩⟩
      (by decide) (by decide) (by decide)⟩

/-- C10: the unguarded `brick.move_down(distance)` fast-forward call in
`get_settled_bricks` never yields the sentinel (the jump distance is always
strictly below both endpoint z coordinates, every settled brick keeping
`z_min ≥ 1`), so the simulation always completes: for every input the
modelled `get_settled_bricks` returns `some` list, never the `none` that
marks the Python `AttributeError`. -/
theorem c10_jump_never_none (input : List (Position × Position)) :
    ∃ out, get_settled_bricks input = some out := by
  obtain ⟨out, hf, _⟩ := get_settled_inv input
  exact ⟨out, hf⟩
